import Mathlib

/-!
Verification development for the in-process virtual filesystem (VFS) layer:
path router (`lib/internal/vfs/router.js`), VFS instance
(`lib/internal/vfs/virtual_fs.js`) and hook-registry dispatch
(`lib/internal/vfs/module_hooks.js`).

Strings are embedded as lists of characters (`Str`).  The host runs on a
POSIX platform, so the path separator is `'/'` and the Windows
backslash-replacement branch of `normalizePath` is inert.  JavaScript
in-place mutation of the entry tree is embedded by state passing: every
mutating operation returns the tree as it stands after the call, together
with the error it threw (if any), so partially-performed mutations are
visible in the result.
-/

/-- Strings of the embedded program, as lists of characters. -/
abbrev Str := List Char

/-- Error taxonomy.  Modelled from the spec: `internal/vfs/errors.js` is not
part of the excerpt; §7 says errors are tagged by originating operation name
(`createENOENT(syscall, path)` etc.), `ContentUnavailable` is the failure of a
synchronous read of an asynchronous-only provider, and the remaining throws in
the source are plain `Error` objects carrying a message (`jsError`). -/
inductive VfsError where
  | enoent (syscall : Str) (errPath : Str)
  | eisdir (syscall : Str) (errPath : Str)
  | enotdir (syscall : Str) (errPath : Str)
  | contentUnavailable
  | jsError (message : Str)
deriving DecidableEq

-- ==================== Path Router (lib/internal/vfs/router.js) ====================

/-- Whether a path is absolute (`path[0] === '/'`). -/
def isAbsolute (p : Str) : Bool :=
  match p with
  | '/' :: _ => true
  | _ => false

/-- JavaScript `String.prototype.split('/')` semantics: splitting the empty
string yields one empty segment, and every separator starts a new segment. -/
def consHead (c : Char) : List Str → List Str
  | [] => [[c]]
  | seg :: segs => (c :: seg) :: segs

def splitOnSlash : Str → List Str
  | [] => [[]]
  | c :: rest => if c = '/' then [] :: splitOnSlash rest else consHead c (splitOnSlash rest)

/-- JavaScript `Array.prototype.join('/')`. -/
def joinSlash : List Str → Str
  | [] => []
  | [seg] => seg
  | seg :: seg2 :: rest => seg ++ '/' :: joinSlash (seg2 :: rest)

/-- The segment-resolution stack used by the host's `path.resolve`:
empty and `.` segments are dropped, `..` pops the most recent segment
(doing nothing at the root). -/
def resolveSegs : List Str → List Str → List Str
  | [], stack => stack.reverse
  | seg :: rest, stack =>
    if seg = [] ∨ seg = ['.'] then resolveSegs rest stack
    else if seg = ['.', '.'] then resolveSegs rest stack.tail
    else resolveSegs rest (seg :: stack)

/-- Modelled from the spec: the host `path` module (`path.resolve`) is not part
of the excerpt.  §4.1: `normalize(path)` "resolves to an absolute,
separator-canonicalized path with no trailing slash except the root".  On
POSIX, `path.resolve(p)` for a single argument prepends the current working
directory when `p` is relative and then collapses empty, `.` and `..`
segments; the result is absolute and carries no trailing slash except for the
root itself. -/
def pathResolve (cwd p : Str) : Str :=
  let s := if isAbsolute p then p else cwd ++ '/' :: p
  '/' :: joinSlash (resolveSegs (splitOnSlash s) [])

/-- `StringPrototypeEndsWith(s, '/')`. -/
def endsWithSlash : Str → Bool
  | [] => false
  | [c] => c = '/'
  | _ :: c :: rest => endsWithSlash (c :: rest)

/-- `normalizePath` from router.js: resolve to an absolute path, then (on
POSIX, where `path.sep` is `'/'`, the backslash branch does not run) remove a
trailing slash except for the root.  `cwd` is the process working directory
consumed by the host's `path.resolve`. -/
def normalizePath (cwd inputPath : Str) : Str :=
  let normalized := pathResolve cwd inputPath
  if 1 < normalized.length && endsWithSlash normalized then normalized.dropLast
  else normalized

/-- `splitPath` from router.js: the root splits to no segments, any other
normalized path drops the leading slash and splits on `'/'`. -/
def splitPath (normalizedPath : Str) : List Str :=
  if normalizedPath = ['/'] then [] else splitOnSlash (normalizedPath.drop 1)

/-- `StringPrototypeStartsWith(s, t)`. -/
def strStartsWith : Str → Str → Bool
  | _, [] => true
  | [], _ :: _ => false
  | c :: cs, d :: ds => c = d && strStartsWith cs ds

/-- `isUnderMountPoint` from router.js: the path equals the mount point, or
starts with the mount point followed by a slash. -/
def isUnderMountPoint (normalizedPath mountPoint : Str) : Bool :=
  if normalizedPath = mountPoint then true
  else strStartsWith normalizedPath (mountPoint ++ ['/'])

/-- `getRelativePath` from router.js. -/
def getRelativePath (normalizedPath mountPoint : Str) : Str :=
  if normalizedPath = mountPoint then ['/']
  else normalizedPath.drop mountPoint.length

-- ==================== Entry Model ====================

/-- Modelled from the spec: `internal/vfs/entries.js` is not part of the
excerpt.  §9 prescribes the content source as a tagged union
{FixedBytes, SyncProvider(fn), AsyncProvider(fn)}. -/
inductive FileContent where
  | fixedBytes (bytes : List Nat)
  | syncProvider (provider : Unit → List Nat)
  | asyncProvider (provider : Unit → List Nat)

/-- Modelled from the spec: §4.2, `getContentSync() -> bytes` fails with
`ContentUnavailable` if the provider is asynchronous-only. -/
def getContentSync : FileContent → Except VfsError (List Nat)
  | .fixedBytes b => .ok b
  | .syncProvider f => .ok (f ())
  | .asyncProvider _ => .error .contentUnavailable

/-- Modelled from the spec: §4.2, `getContent() -> async bytes` always works;
fixed-buffer files resolve immediately.  The value delivered once the
promise settles. -/
def getContent : FileContent → List Nat
  | .fixedBytes b => b
  | .syncProvider f => f ()
  | .asyncProvider f => f ()

/-- Entry tree node: `VirtualFile` / `VirtualDirectory` from
`internal/vfs/entries.js` (modelled from the spec §3: a closed variant type
{File, Directory}, each node carrying its absolute path at creation time; a
directory maps child names to child entries, insertion-ordered as a JS
`SafeMap`, represented as an association list with unique keys). -/
inductive VirtualEntry where
  | file (entryPath : Str) (content : FileContent)
  | directory (entryPath : Str) (children : List (Str × VirtualEntry))

/-- `isDirectory()` variant discriminant. -/
def isDirEntry : VirtualEntry → Bool
  | .directory _ _ => true
  | .file _ _ => false

/-- `Map.prototype.get` on the children map. -/
def assocGet : List (Str × VirtualEntry) → Str → Option VirtualEntry
  | [], _ => none
  | (k, v) :: rest, name => if k = name then some v else assocGet rest name

/-- `Map.prototype.set` on the children map: overwrites in place, keeping the
original insertion position (spec §4.2 / §9: `addEntry` silently overwrites at
the exact path). -/
def assocSet : List (Str × VirtualEntry) → Str → VirtualEntry → List (Str × VirtualEntry)
  | [], name, e => [(name, e)]
  | (k, v) :: rest, name, e =>
    if k = name then (name, e) :: rest else (k, v) :: assocSet rest name e

/-- Modelled from the spec: §4.2 `getStats()` produces a stat-like record
(kind, size where known); synthetic, not a real inode. -/
structure VfsStats where
  isDir : Bool
  size : Nat
deriving DecidableEq

def contentSize : FileContent → Nat
  | .fixedBytes b => b.length
  | .syncProvider _ => 0
  | .asyncProvider _ => 0

def getStats : VirtualEntry → VfsStats
  | .directory _ _ => { isDir := true, size := 0 }
  | .file _ c => { isDir := false, size := contentSize c }

-- ==================== VirtualFileSystem (lib/internal/vfs/virtual_fs.js) ====================

/-- A `VirtualFileSystem` instance.  The root is always
`new VirtualDirectory('/')` (constructor, virtual_fs.js), so it is represented
by its children map; `isMounted`/`isOverlay` are the `kMounted`/`kOverlay`
flags exposed by the getters of the same names. -/
structure VirtualFileSystem where
  rootChildren : List (Str × VirtualEntry)
  mountPoint : Option Str
  isMounted : Bool
  isOverlay : Bool
  fallthrough : Bool

/-- The constructor: empty root, unmounted, no mount point;
`fallthrough = options.fallthrough !== false`. -/
def newVirtualFileSystem (fallthroughOpt : Bool) : VirtualFileSystem :=
  { rootChildren := [], mountPoint := none, isMounted := false, isOverlay := false,
    fallthrough := fallthroughOpt }

/-- The root entry (`this[kRoot]`). -/
def rootDir (fs : VirtualFileSystem) : VirtualEntry :=
  .directory ['/'] fs.rootChildren

/-- JS truthiness of `this[kMounted] && this[kMountPoint]`: mounted, with a
non-null, non-empty mount-point string. -/
def mountActive (fs : VirtualFileSystem) : Bool :=
  fs.isMounted && (match fs.mountPoint with
    | some mp => !mp.isEmpty
    | none => false)

/-- The segment walk inside `_resolveEntry`: fail as soon as the current node
is not a directory or the next segment is missing. -/
def walkEntries : List Str → VirtualEntry → Option VirtualEntry
  | [], current => some current
  | seg :: rest, current =>
    match current with
    | .file _ _ => none
    | .directory _ ch =>
      match assocGet ch seg with
      | none => none
      | some e => walkEntries rest e

/-- `_resolveEntry`: normalize, translate through the mount point when
mounted (returning `none` outside the mount), short-circuit the root, then
walk the segments. -/
def resolveEntry (cwd : Str) (fs : VirtualFileSystem) (inputPath : Str) : Option VirtualEntry :=
  let normalized := normalizePath cwd inputPath
  let vfsPathO : Option Str :=
    if mountActive fs then
      match fs.mountPoint with
      | some mp =>
        if isUnderMountPoint normalized mp then some (getRelativePath normalized mp) else none
      | none => none
    else some normalized
  match vfsPathO with
  | none => none
  | some vfsPath =>
    if vfsPath = ['/'] then some (rootDir fs)
    else walkEntries (splitPath vfsPath) (rootDir fs)

/-- `shouldHandle`. -/
def shouldHandle (cwd : Str) (fs : VirtualFileSystem) (inputPath : Str) : Bool :=
  if !fs.isMounted && !fs.isOverlay then false
  else
    let normalized := normalizePath cwd inputPath
    if fs.isOverlay then (resolveEntry cwd fs normalized).isSome
    else if mountActive fs then
      match fs.mountPoint with
      | some mp => isUnderMountPoint normalized mp
      | none => false
    else false

/-- The ancestor-walk of `addFile`: `pre` holds the segments already consumed
(in order), mirroring `segments.slice(0, i + 1)`.  Returns the children map as
it stands after the call together with the thrown error, if any: a directory
auto-created before a deeper failure stays in the tree, exactly as the
in-place JS mutation leaves it. -/
def addFileWalk (normalized : Str) (content : FileContent) :
    List Str → List Str → List (Str × VirtualEntry) →
    List (Str × VirtualEntry) × Option VfsError
  | _, [], children => (children, none)
  | _, [seg], children =>
    (assocSet children seg (.file normalized content), none)
  | pre, seg :: seg2 :: rest, children =>
    match assocGet children seg with
    | none =>
      let dirPath := '/' :: joinSlash (pre ++ [seg])
      let result := addFileWalk normalized content (pre ++ [seg]) (seg2 :: rest) []
      (assocSet children seg (.directory dirPath result.1), result.2)
    | some (.directory dp ch) =>
      let result := addFileWalk normalized content (pre ++ [seg]) (seg2 :: rest) ch
      (assocSet children seg (.directory dp result.1), result.2)
    | some (.file _ _) =>
      (children,
       some (.jsError ("Cannot create file: ".data ++ joinSlash (pre ++ [seg]) ++
         " is not a directory".data)))

/-- `addFile`: normalize, reject the root, ensure ancestors exist
(auto-creating directories, failing when an existing ancestor is a file), then
add the file at the last segment.  The first component is the VFS after the
call; the second is the error it threw, if any. -/
def addFile (cwd : Str) (fs : VirtualFileSystem) (filePath : Str) (content : FileContent) :
    VirtualFileSystem × Option VfsError :=
  let normalized := normalizePath cwd filePath
  let segments := splitPath normalized
  if segments = [] then (fs, some (.jsError "Cannot add file at root path".data))
  else
    let result := addFileWalk normalized content [] segments fs.rootChildren
    ({ fs with rootChildren := result.1 }, result.2)

/-- `has`: normalize, then probe `_resolveEntry`. -/
def has (cwd : Str) (fs : VirtualFileSystem) (entryPath : Str) : Bool :=
  let normalized := normalizePath cwd entryPath
  (resolveEntry cwd fs normalized).isSome

/-- The error thrown by `mount`/`overlay` on an already-active VFS (the
spec's `InvalidState`). -/
def invalidStateError : VfsError :=
  .jsError "VFS is already mounted or in overlay mode".data

/-- `mount(prefix)`. -/
def mount (cwd : Str) (fs : VirtualFileSystem) (px : Str) : Except VfsError VirtualFileSystem :=
  if fs.isMounted || fs.isOverlay then .error invalidStateError
  else .ok { fs with mountPoint := some (normalizePath cwd px), isMounted := true }

/-- `overlay()`. -/
def overlay (fs : VirtualFileSystem) : Except VfsError VirtualFileSystem :=
  if fs.isMounted || fs.isOverlay then .error invalidStateError
  else .ok { fs with isOverlay := true }

/-- `unmount()`. -/
def unmount (fs : VirtualFileSystem) : VirtualFileSystem :=
  { fs with mountPoint := none, isMounted := false, isOverlay := false }

/-- `existsSync`. -/
def existsSync (cwd : Str) (fs : VirtualFileSystem) (filePath : Str) : Bool :=
  (resolveEntry cwd fs filePath).isSome

/-- `statSync`: `ENOENT('stat')` on a miss, otherwise the entry's stats. -/
def statSync (cwd : Str) (fs : VirtualFileSystem) (filePath : Str) : Except VfsError VfsStats :=
  match resolveEntry cwd fs filePath with
  | none => .error (.enoent "stat".data filePath)
  | some entry => .ok (getStats entry)

/-- Read result: raw bytes, or text decoded with the requested encoding. -/
inductive ReadResult where
  | bytes (data : List Nat)
  | text (s : Str)
deriving DecidableEq

/-- Modelled from the spec: encoding/decoding of text content is an external
"primitive conversion" (§1); `content.toString(encoding)` is embedded as a
fixed byte-to-character conversion. -/
def toStringEnc (_encoding : Str) (bytes : List Nat) : Str :=
  bytes.map fun b => Char.ofNat b

/-- The encoding-handling block shared verbatim by `readFileSync`, `readFile`
and `promises.readFile`: `options` absent, or a string encoding, or an options
object with an optional `encoding` property; a falsy encoding (absent or the
empty string) leaves the content as raw bytes. -/
def applyReadOptions (options : Option (Option Str)) (content : List Nat) : ReadResult :=
  match options with
  | none => .bytes content
  | some encodingOpt =>
    match encodingOpt with
    | some encoding =>
      if encoding = [] then .bytes content else .text (toStringEnc encoding content)
    | none => .bytes content

/-- `readFileSync`: `ENOENT('open')` on a miss, `EISDIR('read')` on a
directory, then synchronous content retrieval and encoding handling. -/
def readFileSync (cwd : Str) (fs : VirtualFileSystem) (filePath : Str)
    (options : Option (Option Str)) : Except VfsError ReadResult :=
  match resolveEntry cwd fs filePath with
  | none => .error (.enoent "open".data filePath)
  | some (.directory _ _) => .error (.eisdir "read".data filePath)
  | some (.file _ content) =>
    match getContentSync content with
    | .error e => .error e
    | .ok data => .ok (applyReadOptions options data)

/-- Callback-style `readFile`: the eventual callback outcome (the callback is
always invoked on a later tick).  Content retrieval goes through the
asynchronous `getContent` accessor. -/
def readFile (cwd : Str) (fs : VirtualFileSystem) (filePath : Str)
    (options : Option (Option Str)) : Except VfsError ReadResult :=
  match resolveEntry cwd fs filePath with
  | none => .error (.enoent "open".data filePath)
  | some (.directory _ _) => .error (.eisdir "read".data filePath)
  | some (.file _ content) => .ok (applyReadOptions options (getContent content))

/-- `createPromisesAPI(vfs).readFile`: the eventual promise outcome; content
retrieval goes through the asynchronous `getContent` accessor. -/
def promisesReadFile (cwd : Str) (fs : VirtualFileSystem) (filePath : Str)
    (options : Option (Option Str)) : Except VfsError ReadResult :=
  match resolveEntry cwd fs filePath with
  | none => .error (.enoent "open".data filePath)
  | some (.directory _ _) => .error (.eisdir "read".data filePath)
  | some (.file _ content) => .ok (applyReadOptions options (getContent content))

/-- `realpathSync`: normalize, `ENOENT('realpath')` on a miss, otherwise echo
the normalized path. -/
def realpathSync (cwd : Str) (fs : VirtualFileSystem) (filePath : Str) : Except VfsError Str :=
  let normalized := normalizePath cwd filePath
  match resolveEntry cwd fs normalized with
  | none => .error (.enoent "realpath".data filePath)
  | some _ => .ok normalized

/-- `internalModuleStat`: 0 for a file, 1 for a directory, -2 for not found. -/
def internalModuleStat (cwd : Str) (fs : VirtualFileSystem) (filePath : Str) : Int :=
  match resolveEntry cwd fs filePath with
  | none => -2
  | some entry => if isDirEntry entry then 1 else 0

/-- Whether the entry at a path is a file backed by an asynchronous-only
content provider (the one case where synchronous content retrieval fails). -/
def syncReadable (cwd : Str) (fs : VirtualFileSystem) (filePath : Str) : Bool :=
  match resolveEntry cwd fs filePath with
  | some (.file _ (.asyncProvider _)) => false
  | _ => true

-- ==================== Mount/overlay state machine ====================

/-- The explicit activation calls of §4.4. -/
inductive VfsOp where
  | mountOp (px : Str)
  | overlayOp
  | unmountOp

/-- One administrative call: a thrown `InvalidState` leaves the VFS
unchanged. -/
def applyOp (cwd : Str) (fs : VirtualFileSystem) : VfsOp → VirtualFileSystem
  | .mountOp px =>
    match mount cwd fs px with
    | .ok fs' => fs'
    | .error _ => fs
  | .overlayOp =>
    match overlay fs with
    | .ok fs' => fs'
    | .error _ => fs
  | .unmountOp => unmount fs

-- ==================== Hook Registry dispatch (lib/internal/vfs/module_hooks.js) ====================

/-- The loop body of `findVFSForStat` over the active-VFS list (registration
order): a mounted VFS's result is always returned (even -2), an overlay VFS's
only when found. -/
def findVFSForStatGo (cwd normalized : Str) :
    List VirtualFileSystem → Option (VirtualFileSystem × Int)
  | [] => none
  | vfs :: rest =>
    if shouldHandle cwd vfs normalized then
      let result := internalModuleStat cwd vfs normalized
      if vfs.isMounted || decide (0 ≤ result) then some (vfs, result)
      else findVFSForStatGo cwd normalized rest
    else findVFSForStatGo cwd normalized rest

/-- `findVFSForStat`. -/
def findVFSForStat (cwd : Str) (vfsList : List VirtualFileSystem) (filename : Str) :
    Option (VirtualFileSystem × Int) :=
  findVFSForStatGo cwd (normalizePath cwd filename) vfsList

/-- The loop body of `findVFSForRead`: `.ok none` is fallthrough to the real
filesystem, `.error` a thrown error.  A claimed path that exists but is not a
file returns `null` (fallthrough); a read failure falls through unless
mounted; a claimed-but-absent path under a mounted VFS throws
`ENOENT('open', filename)` with the original filename. -/
def findVFSForReadGo (cwd normalized filename : Str) (options : Option (Option Str)) :
    List VirtualFileSystem → Except VfsError (Option (VirtualFileSystem × ReadResult))
  | [] => .ok none
  | vfs :: rest =>
    if shouldHandle cwd vfs normalized then
      if existsSync cwd vfs normalized then
        if internalModuleStat cwd vfs normalized ≠ 0 then .ok none
        else
          match readFileSync cwd vfs normalized options with
          | .ok content => .ok (some (vfs, content))
          | .error e =>
            if vfs.isMounted then .error e
            else findVFSForReadGo cwd normalized filename options rest
      else
        if vfs.isMounted then .error (.enoent "open".data filename)
        else findVFSForReadGo cwd normalized filename options rest
    else findVFSForReadGo cwd normalized filename options rest

/-- `findVFSForRead`. -/
def findVFSForRead (cwd : Str) (vfsList : List VirtualFileSystem) (filename : Str)
    (options : Option (Option Str)) : Except VfsError (Option (VirtualFileSystem × ReadResult)) :=
  findVFSForReadGo cwd (normalizePath cwd filename) filename options vfsList

/-- The loop body of `findVFSForRealpath`. -/
def findVFSForRealpathGo (cwd normalized filename : Str) :
    List VirtualFileSystem → Except VfsError (Option (VirtualFileSystem × Str))
  | [] => .ok none
  | vfs :: rest =>
    if shouldHandle cwd vfs normalized then
      if existsSync cwd vfs normalized then
        match realpathSync cwd vfs normalized with
        | .ok rp => .ok (some (vfs, rp))
        | .error e =>
          if vfs.isMounted then .error e
          else findVFSForRealpathGo cwd normalized filename rest
      else
        if vfs.isMounted then .error (.enoent "realpath".data filename)
        else findVFSForRealpathGo cwd normalized filename rest
    else findVFSForRealpathGo cwd normalized filename rest

/-- `findVFSForRealpath`. -/
def findVFSForRealpath (cwd : Str) (vfsList : List VirtualFileSystem) (filename : Str) :
    Except VfsError (Option (VirtualFileSystem × Str)) :=
  findVFSForRealpathGo cwd (normalizePath cwd filename) filename vfsList

/-- The loop body of `findVFSForFsStat` (serving the `fs.statSync` and
`fs.lstatSync` hooks). -/
def findVFSForFsStatGo (cwd normalized filename : Str) :
    List VirtualFileSystem → Except VfsError (Option (VirtualFileSystem × VfsStats))
  | [] => .ok none
  | vfs :: rest =>
    if shouldHandle cwd vfs normalized then
      if existsSync cwd vfs normalized then
        match statSync cwd vfs normalized with
        | .ok stats => .ok (some (vfs, stats))
        | .error e =>
          if vfs.isMounted then .error e
          else findVFSForFsStatGo cwd normalized filename rest
      else
        if vfs.isMounted then .error (.enoent "stat".data filename)
        else findVFSForFsStatGo cwd normalized filename rest
    else findVFSForFsStatGo cwd normalized filename rest

/-- `findVFSForFsStat`. -/
def findVFSForFsStat (cwd : Str) (vfsList : List VirtualFileSystem) (filename : Str) :
    Except VfsError (Option (VirtualFileSystem × VfsStats)) :=
  findVFSForFsStatGo cwd (normalizePath cwd filename) filename vfsList

/-- A path segment that survives `resolveSegs` untouched: nonempty, not `.`,
not `..`, and free of separators. -/
def CleanSeg (seg : Str) : Prop :=
  seg ≠ [] ∧ seg ≠ ['.'] ∧ seg ≠ ['.', '.'] ∧ '/' ∉ seg

-- ==================== Remaining administrative surface ====================

/-- JS `String.prototype.lastIndexOf('/')`: the index of the last separator,
or -1 when there is none. -/
def lastIndexOfSlash : Str → Int
  | [] => -1
  | c :: rest =>
    let r := lastIndexOfSlash rest
    if 0 ≤ r then r + 1
    else if c = '/' then 0 else -1

/-- JS `StringPrototypeSlice(s, 0, k)`: a negative end index counts from the
end of the string. -/
def jsSliceTo (s : Str) (k : Int) : Str :=
  if k < 0 then s.take (s.length - (-k).toNat) else s.take k.toNat

/-- `getParentPath` from router.js: `null` for the root, `/` when the last
separator is leading, otherwise everything before the last separator. -/
def getParentPath (normalizedPath : Str) : Option Str :=
  if normalizedPath = ['/'] then none
  else
    let lastSlash := lastIndexOfSlash normalizedPath
    if lastSlash = 0 then some ['/']
    else some (jsSliceTo normalizedPath lastSlash)

/-- `getBaseName` from router.js: the substring after the last separator. -/
def getBaseName (normalizedPath : Str) : Str :=
  normalizedPath.drop (lastIndexOfSlash normalizedPath + 1).toNat

/-- `Map.prototype.delete` on the children map (`removeEntry`): removes the
binding and reports whether it was present. -/
def assocRemove : List (Str × VirtualEntry) → Str → List (Str × VirtualEntry) × Bool
  | [], _ => ([], false)
  | (k, v) :: rest, name =>
    if k = name then (rest, true)
    else
      let r := assocRemove rest name
      ((k, v) :: r.1, r.2)

/-- `addDirectory`'s ancestor walk, exactly parallel to `addFileWalk`; the
leaf inserts a fresh `VirtualDirectory` (whose materialized children start
empty — a populate callback only supplies contents lazily, per spec §3). -/
def addDirectoryWalk (normalized : Str) :
    List Str → List Str → List (Str × VirtualEntry) →
    List (Str × VirtualEntry) × Option VfsError
  | _, [], children => (children, none)
  | _, [seg], children =>
    (assocSet children seg (.directory normalized []), none)
  | pre, seg :: seg2 :: rest, children =>
    match assocGet children seg with
    | none =>
      let dirPath := '/' :: joinSlash (pre ++ [seg])
      let result := addDirectoryWalk normalized (pre ++ [seg]) (seg2 :: rest) []
      (assocSet children seg (.directory dirPath result.1), result.2)
    | some (.directory dp ch) =>
      let result := addDirectoryWalk normalized (pre ++ [seg]) (seg2 :: rest) ch
      (assocSet children seg (.directory dp result.1), result.2)
    | some (.file _ _) =>
      (children,
       some (.jsError ("Cannot create directory: ".data ++ joinSlash (pre ++ [seg]) ++
         " is not a directory".data)))

/-- `addDirectory`: `hasPopulate` embeds `typeof populate === 'function'`.
At the root it replaces the root directory only when a populate callback is
supplied (discarding the existing tree), otherwise it returns without change;
elsewhere it auto-creates ancestors like `addFile` and inserts a fresh
directory at the last segment. -/
def addDirectory (cwd : Str) (fs : VirtualFileSystem) (dirPath : Str) (hasPopulate : Bool) :
    VirtualFileSystem × Option VfsError :=
  let normalized := normalizePath cwd dirPath
  let segments := splitPath normalized
  if segments = [] then
    if hasPopulate then ({ fs with rootChildren := [] }, none) else (fs, none)
  else
    let result := addDirectoryWalk normalized [] segments fs.rootChildren
    ({ fs with rootChildren := result.1 }, result.2)

/-- The walk realizing `remove`'s `parent.removeEntry(name)` on the node the
alias `_resolveEntry(parentPath)` designates: descend the parent's segments —
failing (returning false, tree unchanged) exactly when `_resolveEntry` would
return absent or the resolved parent is not a directory — then delete the
base name from the parent's children in place. -/
def removeEntryWalk : List Str → Str → List (Str × VirtualEntry) →
    List (Str × VirtualEntry) × Bool
  | [], name, children => assocRemove children name
  | seg :: rest, name, children =>
    match assocGet children seg with
    | none => (children, false)
    | some (.file _ _) => (children, false)
    | some (.directory dp ch) =>
      let result := removeEntryWalk rest name ch
      (assocSet children seg (.directory dp result.1), result.2)

/-- `remove`: returns false for the root or when the parent does not resolve
to a directory; otherwise delegates to the parent's `removeEntry`.  The
parent is resolved exactly as `_resolveEntry` resolves it (normalization,
mount-prefix translation when mounted, root short-circuit). -/
def remove (cwd : Str) (fs : VirtualFileSystem) (entryPath : Str) :
    VirtualFileSystem × Bool :=
  let normalized := normalizePath cwd entryPath
  match getParentPath normalized with
  | none => (fs, false)
  | some parentPath =>
    let parentNormalized := normalizePath cwd parentPath
    let vfsPathO : Option Str :=
      if mountActive fs then
        match fs.mountPoint with
        | some mp =>
          if isUnderMountPoint parentNormalized mp
          then some (getRelativePath parentNormalized mp) else none
        | none => none
      else some parentNormalized
    match vfsPathO with
    | none => (fs, false)
    | some vfsPath =>
      let result := removeEntryWalk (splitPath vfsPath) (getBaseName normalized) fs.rootChildren
      ({ fs with rootChildren := result.1 }, result.2)

/-- Segment-level initial-segment test: whether the first segment list leads
to the second, i.e. the first path equals the second or is one of its
ancestors. -/
def isInitialSegs : List Str → List Str → Bool
  | [], _ => true
  | _ :: _, [] => false
  | a :: as, b :: bs => a = b && isInitialSegs as bs

/-- The administrative mutation surface of §6 (activation calls included). -/
inductive AdminOp where
  | addFileOp (q : Str) (c : FileContent)
  | addDirectoryOp (q : Str) (hasPopulate : Bool)
  | removeOp (q : Str)
  | mountOp (px : Str)
  | overlayOp
  | unmountOp

/-- One administrative call; a thrown error leaves the VFS as the operation
left it (for `addFile`/`addDirectory` that is the partially-mutated tree the
pair already carries, for `mount`/`overlay` the unchanged state). -/
def applyAdminOp (cwd : Str) (fs : VirtualFileSystem) : AdminOp → VirtualFileSystem
  | .addFileOp q c => (addFile cwd fs q c).1
  | .addDirectoryOp q hp => (addDirectory cwd fs q hp).1
  | .removeOp q => (remove cwd fs q).1
  | .mountOp px =>
    match mount cwd fs px with
    | .ok fs' => fs'
    | .error _ => fs
  | .overlayOp =>
    match overlay fs with
    | .ok fs' => fs'
    | .error _ => fs
  | .unmountOp => unmount fs

/-- Whether an administrative operation can disturb the entry at the target
segment list `segs`: it overwrites or removes that path or one of its
ancestors (for `remove`, the deleted binding is the one the source computes
from the parent path and base name), replaces the root via
`addDirectory('/', populate)`, or mounts the VFS (changing how external paths
are translated). -/
def opDisturbs (cwd : Str) (segs : List Str) : AdminOp → Bool
  | .addFileOp q _ =>
    let qsegs := splitPath (normalizePath cwd q)
    !qsegs.isEmpty && isInitialSegs qsegs segs
  | .addDirectoryOp q hp =>
    let qsegs := splitPath (normalizePath cwd q)
    (!qsegs.isEmpty && isInitialSegs qsegs segs) || (qsegs.isEmpty && hp)
  | .removeOp q =>
    let normalized := normalizePath cwd q
    match getParentPath normalized with
    | none => false
    | some parentPath =>
      isInitialSegs (splitPath (normalizePath cwd parentPath) ++ [getBaseName normalized]) segs
  | .mountOp _ => true
  | .overlayOp => false
  | .unmountOp => false

-- ==================== Path Router lemmas ====================

theorem splitOnSlash_ne_nil (s : Str) : splitOnSlash s ≠ [] := by
  induction s with
  | nil => simp [splitOnSlash]
  | cons c rest ih =>
    simp only [splitOnSlash]
    split
    · simp
    · cases h : splitOnSlash rest with
      | nil => simp [consHead]
      | cons seg segs => simp [consHead]

theorem mem_splitOnSlash_no_slash (s : Str) : ∀ seg ∈ splitOnSlash s, '/' ∉ seg := by
  induction s with
  | nil =>
    intro seg h
    simp [splitOnSlash] at h
    subst h
    simp
  | cons c rest ih =>
    intro seg h
    simp only [splitOnSlash] at h
    by_cases hc : c = '/'
    · rw [if_pos hc] at h
      rcases List.mem_cons.mp h with h1 | h2
      · subst h1; simp
      · exact ih seg h2
    · rw [if_neg hc] at h
      cases hs : splitOnSlash rest with
      | nil => exact absurd hs (splitOnSlash_ne_nil rest)
      | cons seg0 segs =>
        rw [hs] at h
        simp only [consHead] at h
        rcases List.mem_cons.mp h with h1 | h2
        · subst h1
          intro hmem
          rcases List.mem_cons.mp hmem with h3 | h4
          · exact hc h3.symm
          · exact ih seg0 (hs ▸ List.mem_cons_self seg0 segs) h4
        · exact ih seg (by rw [hs]; exact List.mem_cons_of_mem _ h2)

theorem splitOnSlash_no_slash (s : Str) (h : '/' ∉ s) : splitOnSlash s = [s] := by
  induction s with
  | nil => rfl
  | cons c rest ih =>
    have hc : ¬(c = '/') := fun hcc => h (by rw [hcc]; exact List.mem_cons_self _ _)
    simp only [splitOnSlash, if_neg hc]
    rw [ih (fun hm => h (List.mem_cons_of_mem _ hm))]
    rfl

theorem splitOnSlash_append (a s : Str) (h : '/' ∉ a) :
    splitOnSlash (a ++ s) = (a ++ (splitOnSlash s).headI) :: (splitOnSlash s).tail := by
  induction a with
  | nil =>
    simp only [List.nil_append]
    cases hs : splitOnSlash s with
    | nil => exact absurd hs (splitOnSlash_ne_nil s)
    | cons seg segs => simp
  | cons c a' ih =>
    have hc : ¬(c = '/') := fun hcc => h (by rw [hcc]; exact List.mem_cons_self _ _)
    rw [List.cons_append]
    simp only [splitOnSlash, if_neg hc]
    rw [ih (fun hm => h (List.mem_cons_of_mem _ hm))]
    rfl

theorem splitOnSlash_joinSlash (segs : List Str) (hne : segs ≠ [])
    (h : ∀ seg ∈ segs, '/' ∉ seg) : splitOnSlash (joinSlash segs) = segs := by
  induction segs with
  | nil => exact absurd rfl hne
  | cons a rest ih =>
    cases rest with
    | nil => exact splitOnSlash_no_slash a (h a (List.mem_cons_self _ _))
    | cons b rest' =>
      have ha : '/' ∉ a := h a (List.mem_cons_self _ _)
      show splitOnSlash (a ++ '/' :: joinSlash (b :: rest')) = a :: b :: rest'
      rw [splitOnSlash_append a _ ha]
      have hj : splitOnSlash ('/' :: joinSlash (b :: rest')) =
          [] :: splitOnSlash (joinSlash (b :: rest')) := by
        simp [splitOnSlash]
      rw [hj, ih (by simp) (fun seg hs => h seg (List.mem_cons_of_mem _ hs))]
      simp

theorem mem_resolveSegs (l : List Str) :
    ∀ stack : List Str, (∀ seg ∈ l, '/' ∉ seg) → (∀ seg ∈ stack, CleanSeg seg) →
      ∀ seg ∈ resolveSegs l stack, CleanSeg seg := by
  induction l with
  | nil =>
    intro stack _ hs seg h
    simp only [resolveSegs] at h
    exact hs seg (List.mem_reverse.mp h)
  | cons a rest ih =>
    intro stack hl hs seg h
    have hl' : ∀ seg ∈ rest, '/' ∉ seg := fun seg hm => hl seg (List.mem_cons_of_mem _ hm)
    simp only [resolveSegs] at h
    by_cases h1 : a = [] ∨ a = ['.']
    · rw [if_pos h1] at h
      exact ih stack hl' hs seg h
    · rw [if_neg h1] at h
      by_cases h2 : a = ['.', '.']
      · rw [if_pos h2] at h
        exact ih stack.tail hl' (fun seg hm => hs seg (List.mem_of_mem_tail hm)) seg h
      · rw [if_neg h2] at h
        refine ih (a :: stack) hl' ?_ seg h
        intro seg hm
        rcases List.mem_cons.mp hm with hm1 | hm2
        · subst hm1
          exact ⟨fun he => h1 (Or.inl he), fun he => h1 (Or.inr he), h2,
            hl seg (List.mem_cons_self _ _)⟩
        · exact hs seg hm2

theorem resolveSegs_clean_id (l : List Str) (hl : ∀ seg ∈ l, CleanSeg seg) :
    ∀ stack : List Str, resolveSegs l stack = stack.reverse ++ l := by
  induction l with
  | nil => intro stack; simp [resolveSegs]
  | cons a rest ih =>
    intro stack
    obtain ⟨h1, h2, h3, _⟩ := hl a (List.mem_cons_self _ _)
    simp only [resolveSegs, if_neg (not_or.mpr ⟨h1, h2⟩), if_neg h3]
    rw [ih (fun seg hm => hl seg (List.mem_cons_of_mem _ hm)) (a :: stack)]
    simp

theorem joinSlash_ne_nil (segs : List Str) (hne : segs ≠ [])
    (h : ∀ seg ∈ segs, seg ≠ []) : joinSlash segs ≠ [] := by
  cases segs with
  | nil => exact absurd rfl hne
  | cons a rest =>
    cases rest with
    | nil => exact h a (List.mem_cons_self _ _)
    | cons b r' => simp [joinSlash]

theorem endsWithSlash_append_cons (a : Str) (c : Char) (d : Str) :
    endsWithSlash (a ++ c :: d) = endsWithSlash (c :: d) := by
  induction a with
  | nil => rfl
  | cons x a' ih =>
    rw [List.cons_append]
    cases ha : a' ++ c :: d with
    | nil => exact absurd ha (by simp)
    | cons y t =>
      rw [show endsWithSlash (x :: y :: t) = endsWithSlash (y :: t) from rfl, ← ha, ih]

theorem endsWithSlash_no_slash (s : Str) (h : '/' ∉ s) : endsWithSlash s = false := by
  induction s with
  | nil => rfl
  | cons c rest ih =>
    cases rest with
    | nil =>
      have hc : ¬(c = '/') := fun hcc => h (by rw [hcc]; exact List.mem_cons_self _ _)
      simp [endsWithSlash, hc]
    | cons d r' =>
      rw [show endsWithSlash (c :: d :: r') = endsWithSlash (d :: r') from rfl]
      exact ih (fun hm => h (List.mem_cons_of_mem _ hm))

theorem endsWithSlash_joinSlash (segs : List Str) (hne : segs ≠ [])
    (h : ∀ seg ∈ segs, CleanSeg seg) : endsWithSlash (joinSlash segs) = false := by
  induction segs with
  | nil => exact absurd rfl hne
  | cons a rest ih =>
    cases rest with
    | nil => exact endsWithSlash_no_slash a (h a (List.mem_cons_self _ _)).2.2.2
    | cons b r' =>
      show endsWithSlash (a ++ '/' :: joinSlash (b :: r')) = false
      rw [endsWithSlash_append_cons]
      cases hj : joinSlash (b :: r') with
      | nil =>
        exact absurd hj (joinSlash_ne_nil _ (by simp)
          (fun seg hm => (h seg (List.mem_cons_of_mem _ hm)).1))
      | cons y t =>
        rw [show endsWithSlash ('/' :: y :: t) = endsWithSlash (y :: t) from rfl, ← hj]
        exact ih (by simp) (fun seg hm => h seg (List.mem_cons_of_mem _ hm))

theorem pathResolve_segs_clean (cwd p : Str) :
    ∀ seg ∈ resolveSegs (splitOnSlash (if isAbsolute p then p else cwd ++ '/' :: p)) [],
      CleanSeg seg :=
  mem_resolveSegs _ [] (mem_splitOnSlash_no_slash _) (by simp)

theorem slash_join_no_strip (segs : List Str) (h : ∀ seg ∈ segs, CleanSeg seg) :
    (1 < ('/' :: joinSlash segs).length && endsWithSlash ('/' :: joinSlash segs)) = false := by
  cases segs with
  | nil => rfl
  | cons a rest =>
    cases hj : joinSlash (a :: rest) with
    | nil =>
      exact absurd hj (joinSlash_ne_nil _ (by simp) (fun seg hm => (h seg hm).1))
    | cons y t =>
      rw [show endsWithSlash ('/' :: y :: t) = endsWithSlash (y :: t) from rfl, ← hj,
        endsWithSlash_joinSlash _ (by simp) h]
      simp

theorem normalizePath_eq_pathResolve (cwd p : Str) :
    normalizePath cwd p = pathResolve cwd p := by
  have hc : (1 < (pathResolve cwd p).length && endsWithSlash (pathResolve cwd p)) = false :=
    slash_join_no_strip
      (resolveSegs (splitOnSlash (if isAbsolute p then p else cwd ++ '/' :: p)) [])
      (pathResolve_segs_clean cwd p)
  simp only [normalizePath, hc, Bool.false_eq_true, if_false]

theorem pathResolve_slash_join (segs : List Str) (cwd : Str)
    (h : ∀ seg ∈ segs, CleanSeg seg) :
    pathResolve cwd ('/' :: joinSlash segs) = '/' :: joinSlash segs := by
  cases segs with
  | nil => rfl
  | cons a rest =>
    show '/' :: joinSlash (resolveSegs (splitOnSlash ('/' :: joinSlash (a :: rest))) []) =
      '/' :: joinSlash (a :: rest)
    rw [show splitOnSlash ('/' :: joinSlash (a :: rest)) =
        [] :: splitOnSlash (joinSlash (a :: rest)) by simp [splitOnSlash]]
    rw [splitOnSlash_joinSlash _ (by simp) (fun seg hm => (h seg hm).2.2.2)]
    rw [show resolveSegs ([] :: a :: rest) [] = resolveSegs (a :: rest) [] by simp [resolveSegs]]
    rw [resolveSegs_clean_id _ h []]
    rfl

theorem pathResolve_idem (cwd p : Str) :
    pathResolve cwd (pathResolve cwd p) = pathResolve cwd p := by
  have hclean := pathResolve_segs_clean cwd p
  exact pathResolve_slash_join
    (resolveSegs (splitOnSlash (if isAbsolute p then p else cwd ++ '/' :: p)) []) cwd hclean

theorem normalizePath_idem (cwd p : Str) :
    normalizePath cwd (normalizePath cwd p) = normalizePath cwd p := by
  simp [normalizePath_eq_pathResolve, pathResolve_idem]

theorem resolveEntry_normalizePath (cwd : Str) (fs : VirtualFileSystem) (p : Str) :
    resolveEntry cwd fs (normalizePath cwd p) = resolveEntry cwd fs p := by
  simp only [resolveEntry, normalizePath_idem]

theorem strStartsWith_iff (s t : Str) : strStartsWith s t = true ↔ ∃ rest, s = t ++ rest := by
  induction t generalizing s with
  | nil =>
    constructor
    · intro _; exact ⟨s, rfl⟩
    · intro _
      cases s with
      | nil => rfl
      | cons c cs => rfl
  | cons d ds ih =>
    cases s with
    | nil =>
      constructor
      · intro h; exact absurd h (by simp [strStartsWith])
      · rintro ⟨rest, hr⟩; exact absurd hr (by simp)
    | cons c cs =>
      show (c = d && strStartsWith cs ds) = true ↔ _
      rw [Bool.and_eq_true, decide_eq_true_eq, ih]
      constructor
      · rintro ⟨hcd, rest, hr⟩
        exact ⟨rest, by rw [hcd, hr]; rfl⟩
      · rintro ⟨rest, hr⟩
        rw [List.cons_append] at hr
        obtain ⟨h1, h2⟩ := List.cons.inj hr
        exact ⟨h1, rest, h2⟩

theorem isUnderMountPoint_iff (p mp : Str) :
    isUnderMountPoint p mp = true ↔ p = mp ∨ ∃ rest, p = mp ++ '/' :: rest := by
  unfold isUnderMountPoint
  by_cases h : p = mp
  · simp [h]
  · rw [if_neg h, strStartsWith_iff]
    constructor
    · rintro ⟨rest, hr⟩
      right
      exact ⟨rest, by rw [hr, List.append_assoc]; rfl⟩
    · rintro (h1 | ⟨rest, hr⟩)
      · exact absurd h1 h
      · exact ⟨rest, by rw [hr, List.append_assoc]; rfl⟩

/-- Claim C7: for every normalized path `p` and mount prefix `m`,
`isUnderMount(p, m)` is true iff `p` equals `m` or `p` starts with `m`
followed by a path separator; in particular `/seaside` is never matched by
mount prefix `/sea`. -/
theorem C7_isUnderMountPoint_boundary :
    (∀ p mp : Str, isUnderMountPoint p mp = true ↔ p = mp ∨ ∃ rest, p = mp ++ '/' :: rest)
    ∧ isUnderMountPoint "/seaside".data "/sea".data = false :=
  ⟨isUnderMountPoint_iff, by decide⟩

/-- Claim C8: `normalize` is idempotent: applying `normalize` to an
already-normalized path returns it unchanged,
`normalize(normalize(p)) == normalize(p)` for every path `p` (and every
working directory consumed by the host's `path.resolve`). -/
theorem C8_normalizePath_idempotent (cwd p : Str) :
    normalizePath cwd (normalizePath cwd p) = normalizePath cwd p :=
  normalizePath_idem cwd p

-- ==================== shouldHandle / has ====================

/-- Claim C2: `shouldHandle(p)` is false whenever the VFS is neither mounted
nor in overlay mode; in overlay mode it is true iff `p` resolves to an
existing entry in the tree; in mounted mode it is true iff `p` lies under the
mount prefix, whether or not an entry exists there. -/
theorem C2_shouldHandle_modes (cwd : Str) (fs : VirtualFileSystem) (p : Str) :
    (fs.isMounted = false → fs.isOverlay = false → shouldHandle cwd fs p = false)
    ∧ (fs.isOverlay = true → shouldHandle cwd fs p = (resolveEntry cwd fs p).isSome)
    ∧ (∀ mp, fs.isOverlay = false → fs.isMounted = true → fs.mountPoint = some mp → mp ≠ [] →
        shouldHandle cwd fs p = isUnderMountPoint (normalizePath cwd p) mp) := by
  refine ⟨?_, ?_, ?_⟩
  · intro hm ho
    simp [shouldHandle, hm, ho]
  · intro ho
    simp [shouldHandle, ho, resolveEntry_normalizePath]
  · intro mp ho hm hmp hne
    cases mp with
    | nil => exact absurd rfl hne
    | cons c cs => simp [shouldHandle, mountActive, ho, hm, hmp]

theorem C2_shouldHandle_modes_witness :
    shouldHandle "/".data
      { rootChildren := [], mountPoint := some "/m".data, isMounted := true,
        isOverlay := false, fallthrough := true } "/m/q".data
    = isUnderMountPoint (normalizePath "/".data "/m/q".data) "/m".data :=
  (C2_shouldHandle_modes "/".data
    { rootChildren := [], mountPoint := some "/m".data, isMounted := true,
      isOverlay := false, fallthrough := true } "/m/q".data).2.2
    "/m".data rfl rfl rfl (by decide)

/-- Claim C3 is false as stated: `has` resolves through `_resolveEntry`,
which applies mount-prefix translation when mounted.  For one fixed tree
containing the file `/a`, `has('/a')` is true on the unmounted VFS but false
on the same tree mounted at `/m`. -/
theorem C3_has_mount_dependence_counterexample :
    (has "/".data
        { rootChildren := [("a".data, .file "/a".data (.fixedBytes [104]))],
          mountPoint := none, isMounted := false, isOverlay := false, fallthrough := true }
        "/a".data = true)
    ∧ (has "/".data
        { rootChildren := [("a".data, .file "/a".data (.fixedBytes [104]))],
          mountPoint := some "/m".data, isMounted := true, isOverlay := false,
          fallthrough := true }
        "/a".data = false) :=
  ⟨rfl, rfl⟩

/-- Claim C3 (amended): `has(p)` is an existence probe that routes through the
same `_resolveEntry` lookup as `existsSync` — including mount-prefix
translation when mounted — so `has(p)` always equals `existsSync(p)`; for a
fixed tree the result is the same across unmounted and overlay modes (the
overlay flag never enters resolution), but in mounted mode the result depends
on the mount prefix. -/
theorem C3_has_equals_existsSync (cwd : Str) (fs : VirtualFileSystem) (p : Str) :
    has cwd fs p = existsSync cwd fs p
    ∧ (∀ (children : List (Str × VirtualEntry)) (fall : Bool),
        has cwd { rootChildren := children, mountPoint := none, isMounted := false,
                  isOverlay := false, fallthrough := fall } p
        = has cwd { rootChildren := children, mountPoint := none, isMounted := false,
                    isOverlay := true, fallthrough := fall } p) := by
  constructor
  · simp [has, existsSync, resolveEntry_normalizePath]
  · intro children fall
    simp [has, resolveEntry, mountActive, rootDir]

-- ==================== Mount/overlay state machine (C9) ====================

theorem applyOp_mutex (cwd : Str) (fs : VirtualFileSystem)
    (h : ¬(fs.isMounted = true ∧ fs.isOverlay = true)) (op : VfsOp) :
    ¬((applyOp cwd fs op).isMounted = true ∧ (applyOp cwd fs op).isOverlay = true) := by
  cases op with
  | mountOp px =>
    by_cases hb : (fs.isMounted || fs.isOverlay) = true
    · simpa [applyOp, mount, hb] using h
    · simp only [Bool.or_eq_true, not_or, Bool.not_eq_true] at hb
      simp [applyOp, mount, hb.1, hb.2]
  | overlayOp =>
    by_cases hb : (fs.isMounted || fs.isOverlay) = true
    · simpa [applyOp, overlay, hb] using h
    · simp only [Bool.or_eq_true, not_or, Bool.not_eq_true] at hb
      simp [applyOp, overlay, hb.1, hb.2]
  | unmountOp => simp [applyOp, unmount]

theorem foldl_applyOp_mutex (cwd : Str) (ops : List VfsOp) (fs : VirtualFileSystem)
    (h : ¬(fs.isMounted = true ∧ fs.isOverlay = true)) :
    ¬((ops.foldl (applyOp cwd) fs).isMounted = true
      ∧ (ops.foldl (applyOp cwd) fs).isOverlay = true) := by
  induction ops generalizing fs with
  | nil => exact h
  | cons op rest ih => exact ih _ (applyOp_mutex cwd fs h op)

/-- Claim C9: a VFS begins unmounted; no sequence of mount/overlay/unmount
operations starting from the initial state reaches a state that is both
mounted and overlay; and both `mount()` and `overlay()` fail with the
InvalidState error — leaving the state unchanged — when the VFS is already in
either active mode. -/
theorem C9_mode_mutual_exclusion :
    (∀ b, (newVirtualFileSystem b).isMounted = false ∧ (newVirtualFileSystem b).isOverlay = false)
    ∧ (∀ (cwd : Str) (ops : List VfsOp),
        ¬((ops.foldl (applyOp cwd) (newVirtualFileSystem true)).isMounted = true
          ∧ (ops.foldl (applyOp cwd) (newVirtualFileSystem true)).isOverlay = true))
    ∧ (∀ (cwd : Str) (fs : VirtualFileSystem) (px : Str),
        (fs.isMounted || fs.isOverlay) = true →
        mount cwd fs px = .error invalidStateError
        ∧ overlay fs = .error invalidStateError
        ∧ applyOp cwd fs (.mountOp px) = fs
        ∧ applyOp cwd fs .overlayOp = fs) := by
  refine ⟨fun b => ⟨rfl, rfl⟩, ?_, ?_⟩
  · intro cwd ops
    exact foldl_applyOp_mutex cwd ops _ (by simp [newVirtualFileSystem])
  · intro cwd fs px hb
    exact ⟨by simp [mount, hb], by simp [overlay, hb],
      by simp [applyOp, mount, hb], by simp [applyOp, overlay, hb]⟩

theorem C9_mode_mutual_exclusion_witness :
    mount "/".data
      { rootChildren := [], mountPoint := some "/m".data, isMounted := true,
        isOverlay := false, fallthrough := true } "/x".data = .error invalidStateError :=
  (C9_mode_mutual_exclusion.2.2 "/".data
    { rootChildren := [], mountPoint := some "/m".data, isMounted := true,
      isOverlay := false, fallthrough := true } "/x".data rfl).1

-- ==================== Async/sync read equivalence (C4) ====================

/-- Claim C4 is false as stated for files backed by asynchronous-only content
providers: on such a file `readFileSync` fails with ContentUnavailable while
the callback-style and promise-style `readFile` succeed with the provider's
bytes, because the asynchronous paths retrieve content through the
asynchronous accessor. -/
theorem C4_async_only_counterexample :
    (readFileSync "/".data
      (addFile "/".data (newVirtualFileSystem true) "/a".data
        (.asyncProvider (fun _ => [104]))).1 "/a".data none
      = .error .contentUnavailable)
    ∧ (readFile "/".data
      (addFile "/".data (newVirtualFileSystem true) "/a".data
        (.asyncProvider (fun _ => [104]))).1 "/a".data none
      = .ok (.bytes [104]))
    ∧ (promisesReadFile "/".data
      (addFile "/".data (newVirtualFileSystem true) "/a".data
        (.asyncProvider (fun _ => [104]))).1 "/a".data none
      = .ok (.bytes [104])) :=
  ⟨rfl, rfl, rfl⟩

/-- Claim C4 (amended): for every path and options the promise-style
`readFile` produces exactly the outcome of the callback-style `readFile`, and
both produce exactly the success value or error outcome of `readFileSync`
whenever the path does not resolve to a file backed by an asynchronous-only
content provider (misses and directory errors always agree); on
asynchronous-only providers the synchronous side alone fails with
ContentUnavailable. -/
theorem C4_async_matches_sync (cwd : Str) (fs : VirtualFileSystem) (p : Str)
    (options : Option (Option Str)) :
    promisesReadFile cwd fs p options = readFile cwd fs p options
    ∧ (syncReadable cwd fs p = true →
        readFile cwd fs p options = readFileSync cwd fs p options) := by
  constructor
  · rfl
  · intro h
    unfold syncReadable at h
    unfold readFile readFileSync
    cases hr : resolveEntry cwd fs p with
    | none => rfl
    | some e =>
      rw [hr] at h
      cases e with
      | directory ep ch => rfl
      | file ep c =>
        cases c with
        | fixedBytes b => rfl
        | syncProvider f => rfl
        | asyncProvider f => simp at h

theorem C4_async_matches_sync_witness :
    readFile "/".data
      (addFile "/".data (newVirtualFileSystem true) "/a".data (.fixedBytes [104])).1
      "/a".data none
    = readFileSync "/".data
      (addFile "/".data (newVirtualFileSystem true) "/a".data (.fixedBytes [104])).1
      "/a".data none :=
  (C4_async_matches_sync "/".data
    (addFile "/".data (newVirtualFileSystem true) "/a".data (.fixedBytes [104])).1
    "/a".data none).2 rfl

-- ==================== addFile lemmas (C5, C10) ====================

theorem assocGet_assocSet_self (l : List (Str × VirtualEntry)) (k : Str) (v : VirtualEntry) :
    assocGet (assocSet l k v) k = some v := by
  induction l with
  | nil => simp [assocSet, assocGet]
  | cons hd rest ih =>
    obtain ⟨k', v'⟩ := hd
    by_cases h : k' = k
    · simp [assocSet, h, assocGet]
    · simp [assocSet, h, assocGet, ih]

theorem assocSet_self (l : List (Str × VirtualEntry)) (k : Str) (v : VirtualEntry)
    (h : assocGet l k = some v) : assocSet l k v = l := by
  induction l with
  | nil => simp [assocGet] at h
  | cons hd rest ih =>
    obtain ⟨k', v'⟩ := hd
    by_cases hk : k' = k
    · simp only [assocGet, if_pos hk] at h
      obtain rfl : v' = v := Option.some.inj h
      simp [assocSet, hk]
    · simp only [assocGet, if_neg hk] at h
      simp [assocSet, hk, ih h]

theorem addFileWalk_empty_ok (n : Str) (c : FileContent) :
    ∀ (segs pre : List Str), (addFileWalk n c pre segs []).2 = none := by
  intro segs
  induction segs with
  | nil => intro pre; rfl
  | cons seg rest ih =>
    intro pre
    cases rest with
    | nil => rfl
    | cons seg2 rest' =>
      show (addFileWalk n c pre (seg :: seg2 :: rest') []).2 = none
      simp only [addFileWalk, assocGet]
      exact ih (pre ++ [seg])

theorem addFileWalk_err_unchanged (n : Str) (c : FileContent) :
    ∀ (segs pre : List Str) (children : List (Str × VirtualEntry)) (e : VfsError),
      (addFileWalk n c pre segs children).2 = some e →
      (addFileWalk n c pre segs children).1 = children := by
  intro segs
  induction segs with
  | nil => intro pre children e h; simp [addFileWalk] at h
  | cons seg rest ih =>
    intro pre children e h
    cases rest with
    | nil => simp [addFileWalk] at h
    | cons seg2 rest' =>
      simp only [addFileWalk] at h ⊢
      cases hg : assocGet children seg with
      | none =>
        rw [hg] at h
        simp only at h
        rw [addFileWalk_empty_ok n c (seg2 :: rest') (pre ++ [seg])] at h
        exact absurd h (by simp)
      | some entry =>
        cases entry with
        | directory dp ch =>
          rw [hg] at h
          simp only at h
          show assocSet children seg
            (VirtualEntry.directory dp (addFileWalk n c (pre ++ [seg]) (seg2 :: rest') ch).1)
            = children
          rw [ih (pre ++ [seg]) ch e h]
          exact assocSet_self children seg (.directory dp ch) hg
        | file fp fc =>
          rfl

theorem addFileWalk_resolve (n : Str) (c : FileContent) :
    ∀ (segs pre : List Str) (children children' : List (Str × VirtualEntry)) (dp : Str),
      segs ≠ [] →
      addFileWalk n c pre segs children = (children', none) →
      walkEntries segs (.directory dp children') = some (.file n c) := by
  intro segs
  induction segs with
  | nil => intro pre children children' dp hne _; exact absurd rfl hne
  | cons seg rest ih =>
    intro pre children children' dp hne hw
    cases rest with
    | nil =>
      have h1 : children' = assocSet children seg (.file n c) :=
        (congrArg Prod.fst hw).symm
      rw [h1]
      simp [walkEntries, assocGet_assocSet_self]
    | cons seg2 rest' =>
      simp only [addFileWalk] at hw
      cases hg : assocGet children seg with
      | none =>
        rw [hg] at hw
        simp only at hw
        obtain ⟨h1, h2⟩ := Prod.mk.injEq .. |>.mp hw
        have hR : addFileWalk n c (pre ++ [seg]) (seg2 :: rest') [] =
            ((addFileWalk n c (pre ++ [seg]) (seg2 :: rest') []).1, none) := by
          rw [← h2]
        have hrec := ih (pre ++ [seg]) []
          (addFileWalk n c (pre ++ [seg]) (seg2 :: rest') []).1
          ('/' :: joinSlash (pre ++ [seg])) (by simp) hR
        rw [← h1]
        show walkEntries (seg :: seg2 :: rest') (.directory dp (assocSet children seg _))
          = some (.file n c)
        simp only [walkEntries, assocGet_assocSet_self]
        exact hrec
      | some entry =>
        cases entry with
        | directory dpe ch =>
          rw [hg] at hw
          simp only at hw
          obtain ⟨h1, h2⟩ := Prod.mk.injEq .. |>.mp hw
          have hR : addFileWalk n c (pre ++ [seg]) (seg2 :: rest') ch =
              ((addFileWalk n c (pre ++ [seg]) (seg2 :: rest') ch).1, none) := by
            rw [← h2]
          have hrec := ih (pre ++ [seg]) ch
            (addFileWalk n c (pre ++ [seg]) (seg2 :: rest') ch).1 dpe (by simp) hR
          rw [← h1]
          show walkEntries (seg :: seg2 :: rest') (.directory dp (assocSet children seg _))
            = some (.file n c)
          simp only [walkEntries, assocGet_assocSet_self]
          exact hrec
        | file fp fc =>
          rw [hg] at hw
          simp only at hw
          exact absurd (congrArg Prod.snd hw) (by simp)

/-- Claim C10: `addFile` is atomic on failure: whenever the call throws
(target is the root, or an existing ancestor component is a file), the entry
tree after the failed call is exactly the tree before it; in particular no
auto-created ancestor directory from the failing call remains. -/
theorem C10_addFile_atomic_on_failure (cwd : Str) (fs : VirtualFileSystem) (p : Str)
    (c : FileContent) (e : VfsError) (h : (addFile cwd fs p c).2 = some e) :
    (addFile cwd fs p c).1 = fs := by
  unfold addFile at h ⊢
  by_cases hs : splitPath (normalizePath cwd p) = []
  · simp [hs]
  · simp only [hs, if_false] at h ⊢
    rw [addFileWalk_err_unchanged (normalizePath cwd p) c _ [] fs.rootChildren e h]

theorem C10_addFile_atomic_on_failure_witness :
    (addFile "/".data
      (addFile "/".data (newVirtualFileSystem true) "/a".data (.fixedBytes [104])).1
      "/a/b".data (.fixedBytes [105])).1
    = (addFile "/".data (newVirtualFileSystem true) "/a".data (.fixedBytes [104])).1 :=
  C10_addFile_atomic_on_failure "/".data
    (addFile "/".data (newVirtualFileSystem true) "/a".data (.fixedBytes [104])).1
    "/a/b".data (.fixedBytes [105])
    (.jsError "Cannot create file: a is not a directory".data) rfl

theorem addFile_resolveEntry (cwd : Str) (fs : VirtualFileSystem) (p : Str) (c : FileContent)
    (hm : fs.isMounted = false) (hok : (addFile cwd fs p c).2 = none) :
    resolveEntry cwd (addFile cwd fs p c).1 p
      = some (.file (normalizePath cwd p) c) := by
  unfold addFile at hok ⊢
  by_cases hs : splitPath (normalizePath cwd p) = []
  · rw [if_pos hs] at hok
    exact absurd hok (by simp)
  · rw [if_neg hs] at hok ⊢
    simp only at hok
    have hWeq : addFileWalk (normalizePath cwd p) c [] (splitPath (normalizePath cwd p))
        fs.rootChildren
        = ((addFileWalk (normalizePath cwd p) c [] (splitPath (normalizePath cwd p))
            fs.rootChildren).1, none) := by
      rw [← hok]
    have hwalk := addFileWalk_resolve (normalizePath cwd p) c
      (splitPath (normalizePath cwd p)) [] fs.rootChildren
      (addFileWalk (normalizePath cwd p) c [] (splitPath (normalizePath cwd p))
        fs.rootChildren).1 ['/'] hs hWeq
    have hroot : ¬(normalizePath cwd p = ['/']) := by
      intro he
      exact hs (by rw [he]; rfl)
    simp only [resolveEntry, mountActive, hm, Bool.false_and, Bool.false_eq_true, if_false,
      rootDir, if_neg hroot]
    exact hwalk

/-- Claim C5 is false as stated: (a) on a VFS mounted at `/m`, `addFile('/a', c)`
succeeds and nothing is ever removed, yet `existsSync('/a')` is false, because
`existsSync` resolves through mount-prefix translation while `addFile` writes
the VFS-relative tree directly; (b) even unmounted, `addFile('/d', c2)` after
`addFile('/d/f', c)` silently overwrites the directory `/d`, making
`existsSync('/d/f')` false although `/d/f` was never removed. -/
theorem C5_counterexample :
    ((addFile "/".data
        { rootChildren := [], mountPoint := some "/m".data, isMounted := true,
          isOverlay := false, fallthrough := true } "/a".data (.fixedBytes [104])).2 = none
      ∧ existsSync "/".data
          (addFile "/".data
            { rootChildren := [], mountPoint := some "/m".data, isMounted := true,
              isOverlay := false, fallthrough := true } "/a".data (.fixedBytes [104])).1
          "/a".data = false)
    ∧ (existsSync "/".data
        (addFile "/".data (newVirtualFileSystem true) "/d/f".data (.fixedBytes [104])).1
        "/d/f".data = true
      ∧ (addFile "/".data
          (addFile "/".data (newVirtualFileSystem true) "/d/f".data (.fixedBytes [104])).1
          "/d".data (.fixedBytes [105])).2 = none
      ∧ existsSync "/".data
          (addFile "/".data
            (addFile "/".data (newVirtualFileSystem true) "/d/f".data (.fixedBytes [104])).1
            "/d".data (.fixedBytes [105])).1
          "/d/f".data = false) :=
  ⟨⟨rfl, rfl⟩, rfl, rfl, rfl⟩


-- ==================== Hook Registry dispatch lemmas (C1, C6) ====================

theorem findVFSForStatGo_skip (cwd normalized : Str) (pre rest : List VirtualFileSystem)
    (h : ∀ u ∈ pre, shouldHandle cwd u normalized = false) :
    findVFSForStatGo cwd normalized (pre ++ rest) = findVFSForStatGo cwd normalized rest := by
  induction pre with
  | nil => rfl
  | cons v pre' ih =>
    have hv : shouldHandle cwd v normalized = false := h v (List.mem_cons_self _ _)
    show findVFSForStatGo cwd normalized (v :: (pre' ++ rest)) = _
    simp only [findVFSForStatGo, hv, Bool.false_eq_true, if_false]
    exact ih (fun u hu => h u (List.mem_cons_of_mem _ hu))

theorem findVFSForReadGo_skip (cwd normalized filename : Str) (options : Option (Option Str))
    (pre rest : List VirtualFileSystem)
    (h : ∀ u ∈ pre, shouldHandle cwd u normalized = false) :
    findVFSForReadGo cwd normalized filename options (pre ++ rest)
      = findVFSForReadGo cwd normalized filename options rest := by
  induction pre with
  | nil => rfl
  | cons v pre' ih =>
    have hv : shouldHandle cwd v normalized = false := h v (List.mem_cons_self _ _)
    show findVFSForReadGo cwd normalized filename options (v :: (pre' ++ rest)) = _
    simp only [findVFSForReadGo, hv, Bool.false_eq_true, if_false]
    exact ih (fun u hu => h u (List.mem_cons_of_mem _ hu))

theorem findVFSForRealpathGo_skip (cwd normalized filename : Str)
    (pre rest : List VirtualFileSystem)
    (h : ∀ u ∈ pre, shouldHandle cwd u normalized = false) :
    findVFSForRealpathGo cwd normalized filename (pre ++ rest)
      = findVFSForRealpathGo cwd normalized filename rest := by
  induction pre with
  | nil => rfl
  | cons v pre' ih =>
    have hv : shouldHandle cwd v normalized = false := h v (List.mem_cons_self _ _)
    show findVFSForRealpathGo cwd normalized filename (v :: (pre' ++ rest)) = _
    simp only [findVFSForRealpathGo, hv, Bool.false_eq_true, if_false]
    exact ih (fun u hu => h u (List.mem_cons_of_mem _ hu))

theorem findVFSForFsStatGo_skip (cwd normalized filename : Str)
    (pre rest : List VirtualFileSystem)
    (h : ∀ u ∈ pre, shouldHandle cwd u normalized = false) :
    findVFSForFsStatGo cwd normalized filename (pre ++ rest)
      = findVFSForFsStatGo cwd normalized filename rest := by
  induction pre with
  | nil => rfl
  | cons v pre' ih =>
    have hv : shouldHandle cwd v normalized = false := h v (List.mem_cons_self _ _)
    show findVFSForFsStatGo cwd normalized filename (v :: (pre' ++ rest)) = _
    simp only [findVFSForFsStatGo, hv, Bool.false_eq_true, if_false]
    exact ih (fun u hu => h u (List.mem_cons_of_mem _ hu))

/-- A VFS whose `shouldHandle` is true either is mounted or resolves the path,
so in `findVFSForStat` its result is always returned: a claiming VFS always
terminates the iteration. -/
theorem shouldHandle_authoritative (cwd : Str) (v : VirtualFileSystem) (n : Str)
    (h : shouldHandle cwd v n = true) :
    (v.isMounted || decide (0 ≤ internalModuleStat cwd v n)) = true := by
  by_cases hm : v.isMounted = true
  · simp [hm]
  · have hm' : v.isMounted = false := by simpa using hm
    by_cases ho : v.isOverlay = true
    · simp only [shouldHandle, hm', ho, Bool.not_false, Bool.not_true, Bool.true_and,
        Bool.false_eq_true, if_false, if_true] at h
      rw [resolveEntry_normalizePath] at h
      unfold internalModuleStat
      cases hr : resolveEntry cwd v n with
      | none => rw [hr] at h; simp at h
      | some e =>
        simp only [hm', Bool.false_or, decide_eq_true_eq]
        split
        · decide
        · decide
    · have ho' : v.isOverlay = false := by simpa using ho
      simp [shouldHandle, hm', ho'] at h

/-- Claim C6: `findVFSForStat` dispatch consults the active VFS list strictly
in registration order, and the first VFS that claims the path determines the
result — whatever VFS instances follow it (including others claiming the same
path) never influence the outcome. -/
theorem C6_registration_order_precedence (cwd p : Str)
    (pre post : List VirtualFileSystem) (v : VirtualFileSystem)
    (hpre : ∀ u ∈ pre, shouldHandle cwd u (normalizePath cwd p) = false)
    (hv : shouldHandle cwd v (normalizePath cwd p) = true) :
    findVFSForStat cwd (pre ++ v :: post) p
      = some (v, internalModuleStat cwd v (normalizePath cwd p)) := by
  unfold findVFSForStat
  rw [findVFSForStatGo_skip cwd _ pre _ hpre]
  simp only [findVFSForStatGo, hv, if_true,
    shouldHandle_authoritative cwd v (normalizePath cwd p) hv]

theorem C6_registration_order_precedence_witness :
    findVFSForStat "/".data
      [ { rootChildren := [], mountPoint := none, isMounted := false,
          isOverlay := true, fallthrough := true },
        { rootChildren := [("a".data, .file "/a".data (.fixedBytes [104]))],
          mountPoint := some "/m".data, isMounted := true, isOverlay := false,
          fallthrough := true },
        { rootChildren := [], mountPoint := some "/m".data, isMounted := true,
          isOverlay := false, fallthrough := true } ] "/m/a".data
      = some ({ rootChildren := [("a".data, .file "/a".data (.fixedBytes [104]))],
                mountPoint := some "/m".data, isMounted := true, isOverlay := false,
                fallthrough := true },
              internalModuleStat "/".data
                { rootChildren := [("a".data, .file "/a".data (.fixedBytes [104]))],
                  mountPoint := some "/m".data, isMounted := true, isOverlay := false,
                  fallthrough := true } (normalizePath "/".data "/m/a".data)) :=
  C6_registration_order_precedence "/".data "/m/a".data
    [ { rootChildren := [], mountPoint := none, isMounted := false,
        isOverlay := true, fallthrough := true } ]
    [ { rootChildren := [], mountPoint := some "/m".data, isMounted := true,
        isOverlay := false, fallthrough := true } ]
    { rootChildren := [("a".data, .file "/a".data (.fixedBytes [104]))],
      mountPoint := some "/m".data, isMounted := true, isOverlay := false,
      fallthrough := true }
    (by intro u hu; rw [List.mem_singleton] at hu; subst hu; rfl) rfl

/-- Claim C1: in Hook Registry dispatch for read, stat and realpath, when a
VFS claims a path that has no entry, the mode decides finality: a mounted VFS
turns the miss into an authoritative `ENOENT` error — no later VFS and no
real-filesystem fallthrough is consulted — while an overlay VFS's miss is a
non-claim and iteration continues with the remaining candidates (or the
original implementation). -/
theorem C1_dispatch_miss_finality :
    (∀ (cwd p : Str) (options : Option (Option Str)) (pre post : List VirtualFileSystem)
        (v : VirtualFileSystem),
      (∀ u ∈ pre, shouldHandle cwd u (normalizePath cwd p) = false) →
      shouldHandle cwd v (normalizePath cwd p) = true →
      existsSync cwd v (normalizePath cwd p) = false →
      v.isMounted = true →
      findVFSForRead cwd (pre ++ v :: post) p options = .error (.enoent "open".data p)
      ∧ findVFSForFsStat cwd (pre ++ v :: post) p = .error (.enoent "stat".data p)
      ∧ findVFSForRealpath cwd (pre ++ v :: post) p = .error (.enoent "realpath".data p))
    ∧ (∀ (cwd p : Str) (options : Option (Option Str)) (rest : List VirtualFileSystem)
        (v : VirtualFileSystem),
      v.isMounted = false → v.isOverlay = true →
      existsSync cwd v (normalizePath cwd p) = false →
      findVFSForRead cwd (v :: rest) p options = findVFSForRead cwd rest p options
      ∧ findVFSForFsStat cwd (v :: rest) p = findVFSForFsStat cwd rest p
      ∧ findVFSForRealpath cwd (v :: rest) p = findVFSForRealpath cwd rest p) := by
  constructor
  · intro cwd p options pre post v hpre hsh hex hm
    refine ⟨?_, ?_, ?_⟩
    · unfold findVFSForRead
      rw [findVFSForReadGo_skip cwd _ p options pre _ hpre]
      simp [findVFSForReadGo, hsh, hex, hm]
    · unfold findVFSForFsStat
      rw [findVFSForFsStatGo_skip cwd _ p pre _ hpre]
      simp [findVFSForFsStatGo, hsh, hex, hm]
    · unfold findVFSForRealpath
      rw [findVFSForRealpathGo_skip cwd _ p pre _ hpre]
      simp [findVFSForRealpathGo, hsh, hex, hm]
  · intro cwd p options rest v hm ho hex
    have hsh : shouldHandle cwd v (normalizePath cwd p) = false := by
      simp only [shouldHandle, hm, ho, Bool.not_false, Bool.not_true, Bool.true_and,
        Bool.and_false, Bool.false_eq_true, if_false, if_true]
      rw [normalizePath_idem]
      exact hex
    refine ⟨?_, ?_, ?_⟩
    · unfold findVFSForRead
      show findVFSForReadGo cwd (normalizePath cwd p) p options ([v] ++ rest) = _
      rw [findVFSForReadGo_skip cwd _ p options [v] rest
        (by intro u hu; rw [List.mem_singleton] at hu; subst hu; exact hsh)]
    · unfold findVFSForFsStat
      show findVFSForFsStatGo cwd (normalizePath cwd p) p ([v] ++ rest) = _
      rw [findVFSForFsStatGo_skip cwd _ p [v] rest
        (by intro u hu; rw [List.mem_singleton] at hu; subst hu; exact hsh)]
    · unfold findVFSForRealpath
      show findVFSForRealpathGo cwd (normalizePath cwd p) p ([v] ++ rest) = _
      rw [findVFSForRealpathGo_skip cwd _ p [v] rest
        (by intro u hu; rw [List.mem_singleton] at hu; subst hu; exact hsh)]

theorem C1_dispatch_miss_finality_witness :
    findVFSForRead "/".data
      [{ rootChildren := [], mountPoint := some "/m".data, isMounted := true,
         isOverlay := false, fallthrough := true }] "/m/x".data none
      = .error (.enoent "open".data "/m/x".data)
    ∧ findVFSForRead "/".data
        [{ rootChildren := [], mountPoint := none, isMounted := false,
           isOverlay := true, fallthrough := true }] "/q".data none
      = findVFSForRead "/".data [] "/q".data none :=
  ⟨(C1_dispatch_miss_finality.1 "/".data "/m/x".data none [] []
      { rootChildren := [], mountPoint := some "/m".data, isMounted := true,
        isOverlay := false, fallthrough := true }
      (by intro u hu; exact absurd hu (List.not_mem_nil u)) rfl rfl rfl).1,
   (C1_dispatch_miss_finality.2 "/".data "/q".data none []
      { rootChildren := [], mountPoint := none, isMounted := false,
        isOverlay := true, fallthrough := true } rfl rfl rfl).1⟩

-- ==================== Persistence lemmas (C5) ====================

theorem isInitialSegs_iff (a b : List Str) :
    isInitialSegs a b = true ↔ ∃ t, a ++ t = b := by
  induction a generalizing b with
  | nil =>
    constructor
    · intro _; exact ⟨b, rfl⟩
    · intro _; rfl
  | cons x as ih =>
    cases b with
    | nil =>
      constructor
      · intro h; exact absurd h (by simp [isInitialSegs])
      · rintro ⟨t, ht⟩; simp at ht
    | cons y bs =>
      show (x = y && isInitialSegs as bs) = true ↔ _
      rw [Bool.and_eq_true, decide_eq_true_eq, ih]
      constructor
      · rintro ⟨rfl, t, rfl⟩
        exact ⟨t, rfl⟩
      · rintro ⟨t, ht⟩
        rw [List.cons_append] at ht
        obtain ⟨h1, h2⟩ := List.cons.inj ht
        exact ⟨h1, t, h2⟩

theorem assocGet_assocSet_ne (l : List (Str × VirtualEntry)) (k s : Str) (v : VirtualEntry)
    (h : s ≠ k) : assocGet (assocSet l k v) s = assocGet l s := by
  induction l with
  | nil => simp [assocSet, assocGet, Ne.symm h]
  | cons hd rest ih =>
    obtain ⟨k', v'⟩ := hd
    by_cases hk : k' = k
    · subst hk
      simp only [assocSet, if_pos rfl]
      simp [assocGet, Ne.symm h]
    · simp only [assocSet, if_neg hk]
      simp [assocGet, ih]

theorem assocGet_assocRemove_ne (l : List (Str × VirtualEntry)) (name s : Str)
    (h : s ≠ name) : assocGet (assocRemove l name).1 s = assocGet l s := by
  induction l with
  | nil => rfl
  | cons hd rest ih =>
    obtain ⟨k, v⟩ := hd
    by_cases hk : k = name
    · subst hk
      simp only [assocRemove, if_pos rfl]
      simp [assocGet, Ne.symm h]
    · simp only [assocRemove, if_neg hk]
      simp [assocGet, ih]

theorem resolveEntry_unmounted (cwd : Str) (fs : VirtualFileSystem) (p : Str)
    (hm : fs.isMounted = false) :
    resolveEntry cwd fs p =
      if normalizePath cwd p = ['/'] then some (rootDir fs)
      else walkEntries (splitPath (normalizePath cwd p)) (rootDir fs) := by
  simp [resolveEntry, mountActive, hm]

theorem addFileWalk_preserves_file (n' : Str) (c' : FileContent) :
    ∀ (segs qsegs pre : List Str) (children : List (Str × VirtualEntry)) (dp n : Str)
      (c : FileContent),
      qsegs ≠ [] →
      (¬ ∃ t, qsegs ++ t = segs) →
      walkEntries segs (.directory dp children) = some (.file n c) →
      walkEntries segs (.directory dp (addFileWalk n' c' pre qsegs children).1)
        = some (.file n c) := by
  intro segs
  induction segs with
  | nil =>
    intro qsegs pre children dp n c _ _ hw
    exact absurd hw (by simp [walkEntries])
  | cons s srest ih =>
    intro qsegs pre children dp n c hq hni hw
    have hw0 := hw
    simp only [walkEntries] at hw
    cases hg : assocGet children s with
    | none => rw [hg] at hw; simp at hw
    | some e =>
      rw [hg] at hw
      simp only at hw
      cases qsegs with
      | nil => exact absurd rfl hq
      | cons q1 qrest =>
        by_cases hqs : q1 = s
        · subst hqs
          cases qrest with
          | nil => exact absurd ⟨srest, rfl⟩ hni
          | cons q2 qrest' =>
            simp only [addFileWalk, hg]
            cases e with
            | file fp fc => exact hw0
            | directory dpe ch =>
              simp only [walkEntries, assocGet_assocSet_self]
              exact ih (q2 :: qrest') (pre ++ [q1]) ch dpe n c (by simp)
                (fun hex => hni (by
                  obtain ⟨t, ht⟩ := hex
                  exact ⟨t, by rw [List.cons_append, ht]⟩)) hw
        · have hget : assocGet (addFileWalk n' c' pre (q1 :: qrest) children).1 s
              = assocGet children s := by
            cases qrest with
            | nil =>
              simp only [addFileWalk]
              exact assocGet_assocSet_ne children q1 s _ (fun hh => hqs hh.symm)
            | cons q2 qrest' =>
              simp only [addFileWalk]
              cases hg2 : assocGet children q1 with
              | none => exact assocGet_assocSet_ne children q1 s _ (fun hh => hqs hh.symm)
              | some e2 =>
                cases e2 with
                | file _ _ => rfl
                | directory dpe2 ch2 =>
                  exact assocGet_assocSet_ne children q1 s _ (fun hh => hqs hh.symm)
          simp only [walkEntries]
          rw [hget, hg]
          exact hw

theorem addDirectoryWalk_preserves_file (n' : Str) :
    ∀ (segs qsegs pre : List Str) (children : List (Str × VirtualEntry)) (dp n : Str)
      (c : FileContent),
      qsegs ≠ [] →
      (¬ ∃ t, qsegs ++ t = segs) →
      walkEntries segs (.directory dp children) = some (.file n c) →
      walkEntries segs (.directory dp (addDirectoryWalk n' pre qsegs children).1)
        = some (.file n c) := by
  intro segs
  induction segs with
  | nil =>
    intro qsegs pre children dp n c _ _ hw
    exact absurd hw (by simp [walkEntries])
  | cons s srest ih =>
    intro qsegs pre children dp n c hq hni hw
    have hw0 := hw
    simp only [walkEntries] at hw
    cases hg : assocGet children s with
    | none => rw [hg] at hw; simp at hw
    | some e =>
      rw [hg] at hw
      simp only at hw
      cases qsegs with
      | nil => exact absurd rfl hq
      | cons q1 qrest =>
        by_cases hqs : q1 = s
        · subst hqs
          cases qrest with
          | nil => exact absurd ⟨srest, rfl⟩ hni
          | cons q2 qrest' =>
            simp only [addDirectoryWalk, hg]
            cases e with
            | file fp fc => exact hw0
            | directory dpe ch =>
              simp only [walkEntries, assocGet_assocSet_self]
              exact ih (q2 :: qrest') (pre ++ [q1]) ch dpe n c (by simp)
                (fun hex => hni (by
                  obtain ⟨t, ht⟩ := hex
                  exact ⟨t, by rw [List.cons_append, ht]⟩)) hw
        · have hget : assocGet (addDirectoryWalk n' pre (q1 :: qrest) children).1 s
              = assocGet children s := by
            cases qrest with
            | nil =>
              simp only [addDirectoryWalk]
              exact assocGet_assocSet_ne children q1 s _ (fun hh => hqs hh.symm)
            | cons q2 qrest' =>
              simp only [addDirectoryWalk]
              cases hg2 : assocGet children q1 with
              | none => exact assocGet_assocSet_ne children q1 s _ (fun hh => hqs hh.symm)
              | some e2 =>
                cases e2 with
                | file _ _ => rfl
                | directory dpe2 ch2 =>
                  exact assocGet_assocSet_ne children q1 s _ (fun hh => hqs hh.symm)
          simp only [walkEntries]
          rw [hget, hg]
          exact hw

theorem removeEntryWalk_preserves_file :
    ∀ (segs parentSegs : List Str) (name : Str) (children : List (Str × VirtualEntry))
      (dp n : Str) (c : FileContent),
      (¬ ∃ t, (parentSegs ++ [name]) ++ t = segs) →
      walkEntries segs (.directory dp children) = some (.file n c) →
      walkEntries segs (.directory dp (removeEntryWalk parentSegs name children).1)
        = some (.file n c) := by
  intro segs
  induction segs with
  | nil =>
    intro parentSegs name children dp n c _ hw
    exact absurd hw (by simp [walkEntries])
  | cons s srest ih =>
    intro parentSegs name children dp n c hni hw
    have hw0 := hw
    simp only [walkEntries] at hw
    cases hg : assocGet children s with
    | none => rw [hg] at hw; simp at hw
    | some e =>
      rw [hg] at hw
      simp only at hw
      cases parentSegs with
      | nil =>
        have hns : ¬(name = s) := by
          intro hh
          subst hh
          exact hni ⟨srest, rfl⟩
        show walkEntries (s :: srest) (.directory dp (assocRemove children name).1)
          = some (.file n c)
        simp only [walkEntries]
        rw [assocGet_assocRemove_ne children name s (fun hh => hns hh.symm), hg]
        exact hw
      | cons q1 qrest =>
        by_cases hqs : q1 = s
        · subst hqs
          simp only [removeEntryWalk, hg]
          cases e with
          | file fp fc => exact hw0
          | directory dpe ch =>
            simp only [walkEntries, assocGet_assocSet_self]
            exact ih qrest name ch dpe n c
              (fun hex => hni (by
                obtain ⟨t, ht⟩ := hex
                refine ⟨t, ?_⟩
                rw [List.cons_append, List.cons_append, ht])) hw
        · have hget : assocGet (removeEntryWalk (q1 :: qrest) name children).1 s
              = assocGet children s := by
            simp only [removeEntryWalk]
            cases hg2 : assocGet children q1 with
            | none => rfl
            | some e2 =>
              cases e2 with
              | file _ _ => rfl
              | directory dpe2 ch2 =>
                exact assocGet_assocSet_ne children q1 s _ (fun hh => hqs hh.symm)
          simp only [walkEntries]
          rw [hget, hg]
          exact hw

theorem applyAdminOp_preserves (cwd p n : Str) (c : FileContent)
    (fs : VirtualFileSystem) (op : AdminOp)
    (hm : fs.isMounted = false)
    (hres : resolveEntry cwd fs p = some (.file n c))
    (hd : opDisturbs cwd (splitPath (normalizePath cwd p)) op = false) :
    (applyAdminOp cwd fs op).isMounted = false
    ∧ resolveEntry cwd (applyAdminOp cwd fs op) p = some (.file n c) := by
  rw [resolveEntry_unmounted cwd fs p hm] at hres
  by_cases hproot : normalizePath cwd p = ['/']
  · rw [if_pos hproot] at hres
    simp [rootDir] at hres
  · rw [if_neg hproot] at hres
    have key : ∀ (children : List (Str × VirtualEntry)) (mo : Option Str) (bm bo bf : Bool),
        bm = false →
        walkEntries (splitPath (normalizePath cwd p)) (.directory ['/'] children)
          = some (.file n c) →
        resolveEntry cwd ⟨children, mo, bm, bo, bf⟩ p = some (.file n c) := by
      intro children mo bm bo bf hbm hww
      rw [resolveEntry_unmounted cwd ⟨children, mo, bm, bo, bf⟩ p hbm, if_neg hproot]
      exact hww
    cases op with
    | addFileOp q c' =>
      simp only [applyAdminOp]
      unfold addFile
      by_cases hq : splitPath (normalizePath cwd q) = []
      · rw [if_pos hq]
        exact ⟨hm, key fs.rootChildren fs.mountPoint fs.isMounted fs.isOverlay
          fs.fallthrough hm hres⟩
      · rw [if_neg hq]
        have hni : ¬ ∃ t, splitPath (normalizePath cwd q) ++ t
            = splitPath (normalizePath cwd p) := by
          intro hex
          have hinit := (isInitialSegs_iff _ _).mpr hex
          simp only [opDisturbs] at hd
          rw [hinit] at hd
          simp at hd
          exact hq hd
        exact ⟨hm, key (addFileWalk (normalizePath cwd q) c' []
            (splitPath (normalizePath cwd q)) fs.rootChildren).1
          fs.mountPoint fs.isMounted fs.isOverlay fs.fallthrough hm
          (addFileWalk_preserves_file (normalizePath cwd q) c'
            (splitPath (normalizePath cwd p)) (splitPath (normalizePath cwd q)) []
            fs.rootChildren ['/'] n c hq hni hres)⟩
    | addDirectoryOp q hp =>
      simp only [applyAdminOp]
      unfold addDirectory
      by_cases hq : splitPath (normalizePath cwd q) = []
      · rw [if_pos hq]
        have hhp : hp = false := by
          simp only [opDisturbs] at hd
          simp [hq] at hd
          exact hd
        subst hhp
        exact ⟨hm, key fs.rootChildren fs.mountPoint fs.isMounted fs.isOverlay
          fs.fallthrough hm hres⟩
      · rw [if_neg hq]
        have hni : ¬ ∃ t, splitPath (normalizePath cwd q) ++ t
            = splitPath (normalizePath cwd p) := by
          intro hex
          have hinit := (isInitialSegs_iff _ _).mpr hex
          simp only [opDisturbs] at hd
          rw [hinit] at hd
          simp at hd
          exact hq hd.1
        exact ⟨hm, key (addDirectoryWalk (normalizePath cwd q) []
            (splitPath (normalizePath cwd q)) fs.rootChildren).1
          fs.mountPoint fs.isMounted fs.isOverlay fs.fallthrough hm
          (addDirectoryWalk_preserves_file (normalizePath cwd q)
            (splitPath (normalizePath cwd p)) (splitPath (normalizePath cwd q)) []
            fs.rootChildren ['/'] n c hq hni hres)⟩
    | removeOp q =>
      simp only [applyAdminOp]
      simp only [remove]
      cases hgp : getParentPath (normalizePath cwd q) with
      | none =>
        exact ⟨hm, key fs.rootChildren fs.mountPoint fs.isMounted fs.isOverlay
          fs.fallthrough hm hres⟩
      | some parentPath =>
        have hma : mountActive fs = false := by simp [mountActive, hm]
        simp only [hma, Bool.false_eq_true, if_false]
        have hni : ¬ ∃ t, (splitPath (normalizePath cwd parentPath)
            ++ [getBaseName (normalizePath cwd q)]) ++ t
            = splitPath (normalizePath cwd p) := by
          intro hex
          have hinit := (isInitialSegs_iff _ _).mpr hex
          simp only [opDisturbs] at hd
          rw [hgp] at hd
          simp only at hd
          rw [hd] at hinit
          exact Bool.false_ne_true hinit
        exact ⟨hm, key (removeEntryWalk (splitPath (normalizePath cwd parentPath))
            (getBaseName (normalizePath cwd q)) fs.rootChildren).1
          fs.mountPoint fs.isMounted fs.isOverlay fs.fallthrough hm
          (removeEntryWalk_preserves_file (splitPath (normalizePath cwd p))
            (splitPath (normalizePath cwd parentPath))
            (getBaseName (normalizePath cwd q)) fs.rootChildren ['/'] n c hni hres)⟩
    | mountOp px =>
      simp only [opDisturbs] at hd
      exact absurd hd (by decide)
    | overlayOp =>
      simp only [applyAdminOp, overlay]
      by_cases hb : (fs.isMounted || fs.isOverlay) = true
      · rw [if_pos hb]
        exact ⟨hm, key fs.rootChildren fs.mountPoint fs.isMounted fs.isOverlay
          fs.fallthrough hm hres⟩
      · rw [if_neg hb]
        exact ⟨hm, key fs.rootChildren fs.mountPoint fs.isMounted true
          fs.fallthrough hm hres⟩
    | unmountOp =>
      exact ⟨rfl, key fs.rootChildren none false false fs.fallthrough rfl hres⟩

theorem foldl_applyAdminOp_preserves (cwd p n : Str) (c : FileContent) :
    ∀ (ops : List AdminOp) (fs : VirtualFileSystem),
      fs.isMounted = false →
      resolveEntry cwd fs p = some (.file n c) →
      (∀ op ∈ ops, opDisturbs cwd (splitPath (normalizePath cwd p)) op = false) →
      (ops.foldl (applyAdminOp cwd) fs).isMounted = false
      ∧ resolveEntry cwd (ops.foldl (applyAdminOp cwd) fs) p = some (.file n c) := by
  intro ops
  induction ops with
  | nil => intro fs hm hres _; exact ⟨hm, hres⟩
  | cons op rest ih =>
    intro fs hm hres hops
    have h1 := applyAdminOp_preserves cwd p n c fs op hm hres
      (hops op (List.mem_cons_self _ _))
    exact ih (applyAdminOp cwd fs op) h1.1 h1.2
      (fun o ho => hops o (List.mem_cons_of_mem _ ho))

/-- Claim C5 (amended): for every non-root path `p` and fixed content `c`,
when the VFS is not mounted and `addFile(p, c)` succeeds, `existsSync(p)`
returns true and `readFileSync(p)` returns `c`, and both persist across every
subsequent sequence of administrative operations (addFile, addDirectory,
remove, mount, overlay, unmount) in which no operation overwrites or removes
`p` or one of its ancestors (including replacing the root via
`addDirectory('/', populate)`) and none mounts the VFS. -/
theorem C5_addFile_read_after_write (cwd : Str) (fs : VirtualFileSystem) (p : Str)
    (bytes : List Nat) (ops : List AdminOp)
    (hm : fs.isMounted = false)
    (hok : (addFile cwd fs p (.fixedBytes bytes)).2 = none)
    (hops : ∀ op ∈ ops, opDisturbs cwd (splitPath (normalizePath cwd p)) op = false) :
    existsSync cwd
      (ops.foldl (applyAdminOp cwd) (addFile cwd fs p (.fixedBytes bytes)).1) p = true
    ∧ readFileSync cwd
        (ops.foldl (applyAdminOp cwd) (addFile cwd fs p (.fixedBytes bytes)).1) p none
      = .ok (.bytes bytes) := by
  have hres := addFile_resolveEntry cwd fs p (.fixedBytes bytes) hm hok
  have hm1 : (addFile cwd fs p (.fixedBytes bytes)).1.isMounted = false := by
    unfold addFile
    by_cases hs : splitPath (normalizePath cwd p) = []
    · rw [if_pos hs]; exact hm
    · rw [if_neg hs]; exact hm
  have h := foldl_applyAdminOp_preserves cwd p (normalizePath cwd p) (.fixedBytes bytes)
    ops (addFile cwd fs p (.fixedBytes bytes)).1 hm1 hres hops
  constructor
  · simp [existsSync, h.2]
  · simp [readFileSync, h.2, getContentSync, applyReadOptions]

theorem C5_addFile_read_after_write_witness :
    existsSync "/".data
      ([AdminOp.addFileOp "/a/c.txt".data (.fixedBytes [1]),
        AdminOp.addDirectoryOp "/a/d".data false,
        AdminOp.removeOp "/a/c.txt".data,
        AdminOp.overlayOp,
        AdminOp.unmountOp].foldl (applyAdminOp "/".data)
        (addFile "/".data (newVirtualFileSystem true) "/a/b.txt".data (.fixedBytes [104])).1)
      "/a/b.txt".data = true
    ∧ readFileSync "/".data
      ([AdminOp.addFileOp "/a/c.txt".data (.fixedBytes [1]),
        AdminOp.addDirectoryOp "/a/d".data false,
        AdminOp.removeOp "/a/c.txt".data,
        AdminOp.overlayOp,
        AdminOp.unmountOp].foldl (applyAdminOp "/".data)
        (addFile "/".data (newVirtualFileSystem true) "/a/b.txt".data (.fixedBytes [104])).1)
      "/a/b.txt".data none = .ok (.bytes [104]) :=
  C5_addFile_read_after_write "/".data (newVirtualFileSystem true) "/a/b.txt".data [104]
    [AdminOp.addFileOp "/a/c.txt".data (.fixedBytes [1]),
     AdminOp.addDirectoryOp "/a/d".data false,
     AdminOp.removeOp "/a/c.txt".data,
     AdminOp.overlayOp,
     AdminOp.unmountOp] rfl rfl (by decide)
